import Mathlib

/-!
Verification of the anabu photometric image-analysis core.

The definitions below are shallow embeddings of the Python sources in
`src/anabu`.  Machine floats are modelled as exact rationals (`ℚ`), numpy
boolean images as `Bool`-valued functions/lists, and fallible code returns
an explicit result type instead of raising.
-/

/-- Python `round(x, 3)` for the rational model: round `x * 1000` to the
nearest integer with ties going to the even integer (banker's rounding, as
documented for Python's `round`), then divide by 1000. -/
def roundHalfEven (q : ℚ) : ℤ :=
  if q - ⌊q⌋ < 1 / 2 then ⌊q⌋
  else if 1 / 2 < q - ⌊q⌋ then ⌊q⌋ + 1
  else if ⌊q⌋ % 2 = 0 then ⌊q⌋ else ⌊q⌋ + 1

/-- Rounding to 3 decimal places, as used by `Evaluator.convert_OD`
(`density.py`): `round(optical_density, 3)`. -/
def round3 (q : ℚ) : ℚ := (roundHalfEven (q * 1000) : ℚ) / 1000

/-- Outcome of `Evaluator.convert_OD` (`density.py` lines 371-408):
`noResult` models the Python `return None`, `density d` a returned optical
density, and `assertFail` the `assert index_above == index_below - 1`
failing (an `AssertionError` raised). -/
inductive ODResult : Type
  | noResult : ODResult
  | assertFail : ODResult
  | density : ℚ → ODResult
  deriving DecidableEq

/-- Fold underlying Python's `min(..., key=...)`: keep the current best
index, replacing it only on a strictly smaller key, so the first index
attaining the minimum wins (Python's documented tie behaviour). -/
def argminAux (key : Nat → ℚ) : List Nat → Nat → Nat
  | [], best => best
  | i :: rest, best => argminAux key rest (if key i < key best then i else best)

/-- Python `min(range(n), key=key)` for `n ≥ 1`: start with best index `0`
and scan the remaining indices `1, ..., n-1`. -/
def argminKey (key : Nat → ℚ) (n : Nat) : Nat :=
  argminAux key (List.range' 1 (n - 1)) 0

/-- The key function of the `index_above` search (`density.py` lines
386-391): the positive part of `params[x][0] - weighted_mean`, with a
non-positive difference mapped to the sentinel key `256`. -/
def odKeyAbove (params : List (ℚ × ℚ)) (weighted_mean : ℚ) (x : Nat) : ℚ :=
  if (params.getD x (0, 0)).1 - weighted_mean > 0 then
    (params.getD x (0, 0)).1 - weighted_mean
  else 256

/-- The key function of the `index_below` search (`density.py` lines
392-397). -/
def odKeyBelow (params : List (ℚ × ℚ)) (weighted_mean : ℚ) (x : Nat) : ℚ :=
  if weighted_mean - (params.getD x (0, 0)).1 > 0 then
    weighted_mean - (params.getD x (0, 0)).1
  else 256

/-- `index_above` (`density.py` lines 386-391). -/
def index_above (params : List (ℚ × ℚ)) (weighted_mean : ℚ) : Nat :=
  argminKey (odKeyAbove params weighted_mean) params.length

/-- `index_below` (`density.py` lines 392-397). -/
def index_below (params : List (ℚ × ℚ)) (weighted_mean : ℚ) : Nat :=
  argminKey (odKeyBelow params weighted_mean) params.length

/-- Shallow embedding of `Evaluator.convert_OD` (`density.py` lines
371-408), parametrised by the calibration table
(`self.calibration_density["parameters"]`, a list of
`(measured, physical)` pairs).  The two leading checks compare against
`parameters[0][0]` and `parameters[-1][0]` and return `None`; the loop
returns the rounded physical value on an exact measured match; otherwise
`index_above`/`index_below` are located with `min(range(n), key=...)`,
the code asserts they are adjacent and linearly interpolates. -/
def convert_OD (params : List (ℚ × ℚ)) (weighted_mean : ℚ) : ODResult :=
  if weighted_mean > (params.headI).1 then ODResult.noResult
  else if weighted_mean < (params.getLastD (0, 0)).1 then ODResult.noResult
  else
    match params.find? (fun p => decide (p.1 = weighted_mean)) with
    | some p => ODResult.density (round3 p.2)
    | none =>
      if (index_above params weighted_mean : ℤ) =
          (index_below params weighted_mean : ℤ) - 1 then
        ODResult.density (round3 ((params.getD (index_above params weighted_mean) (0, 0)).2 -
          ((params.getD (index_above params weighted_mean) (0, 0)).1 - weighted_mean) /
            ((params.getD (index_above params weighted_mean) (0, 0)).1 -
              (params.getD (index_below params weighted_mean) (0, 0)).1) *
          ((params.getD (index_above params weighted_mean) (0, 0)).2 -
            (params.getD (index_below params weighted_mean) (0, 0)).2)))
      else ODResult.assertFail

/-- The `parameters` list of `CALIBRATION_A` (`density.py` lines 28-51),
the brightness → optical-density calibration table, sorted by measured
value descending. -/
def CALIBRATION_A_parameters : List (ℚ × ℚ) :=
  [(254.99999999999986, 0.0),
   (254.97884214253884, 2.144),
   (179.62991560227036, 3.321),
   (100.3155623762223, 3.808),
   (83.99359301605978, 3.918),
   (82.15923041283685, 3.947),
   (39.96343977596004, 4.422),
   (36.24442322391781, 4.435),
   (29.2106679282811, 4.495),
   (26.473770420634942, 4.615),
   (26.335230269520142, 4.645),
   (24.72575704825937, 4.666),
   (24.182287446540485, 4.669),
   (20.817865606171484, 4.754),
   (16.954580589831643, 4.8),
   (4.681635540516993, 5.305),
   (1.9584211906741886, 5.7)]

/-- The guard of `Photo.automask` (`photo.py` line 431):
`if not (grow >= 0.5) and (grow < 1): raise ValueError(...)`.
By Python precedence this parses as `(not (grow >= 0.5)) and (grow < 1)`;
the function returns `true` exactly when the `ValueError` is raised. -/
def automask_grow_raises (grow : ℚ) : Bool :=
  (!(grow ≥ 0.5)) && (grow < 1)

/-- The guard of `crop_photo` inside `Photo.autocrop` (`photo.py` lines
808-812): `smaller_side = min(photo.shape[0], photo.shape[1])` and
`if not margin >= 0 and margin <= smaller_side / 2: raise ValueError(...)`.
By Python precedence the condition is
`(not (margin >= 0)) and (margin <= smaller_side / 2)`; the function
returns `true` exactly when the `ValueError` is raised. -/
def crop_margin_raises (margin smaller_side : ℚ) : Bool :=
  (!(margin ≥ 0)) && (margin ≤ smaller_side / 2)

/-- The dimension check of `Photo.mask_file` (`photo.py` lines 407-414):
`if not (self.height == self.mask_height) and (self.width == self.mask_width):`
followed by `raise Exception("Dimensions ... do not coincide")`.
By Python precedence the condition is
`(not (height == mask_height)) and (width == mask_width)`; the function
returns `true` exactly when the exception is raised. -/
def mask_dims_raise (height width mask_height mask_width : Nat) : Bool :=
  (!(height == mask_height)) && (width == mask_width)

/-- The `parameters` of `CALIBRATION_1` (`pinholes.py` lines 30-42):
coefficients of the pixel-area → physical-diameter polynomial. -/
def CALIBRATION_1_parameters : List ℚ :=
  [2.97879300, -1.16214041e-2, 2.67696227e-5, 1.79613183e-9]

/-- Shallow embedding of `Pinholer.conv_pixel_diameter` (`pinholes.py`
lines 133-150): `a*x + b*x^2 + c*x^3 + e*x^4` with the calibration
coefficients. -/
def conv_pixel_diameter (x : ℚ) : ℚ :=
  CALIBRATION_1_parameters.getD 0 0 * x
    + CALIBRATION_1_parameters.getD 1 0 * x * x
    + CALIBRATION_1_parameters.getD 2 0 * x * x * x
    + CALIBRATION_1_parameters.getD 3 0 * x * x * x * x

/-- The defect size classification of `Pinholer.extract_pinhole_details`
(`pinholes.py` lines 225-236): the `if/elif` chain on the converted
diameter `d` against the four sorted steps `s1 < s2 < s3 < s4`
(`self.steps` from `set_steps`), yielding categories 1-5. -/
def pinhole_category (s1 s2 s3 s4 d : ℚ) : Nat :=
  if d < s1 then 1
  else if d < s2 then 2
  else if d < s3 then 3
  else if d < s4 then 4
  else 5

/-- The pinhole size category breakpoints `PINHOLE_CLASS_STEPS`
(`pinholes.py` line 45). -/
def PINHOLE_CLASS_STEPS : List ℚ := [50, 100, 150, 350]

/-- The grayscale values of the pixels included in the evaluation: the
photo is modelled as a flattened list of 8-bit grayscale values paired
with the flattened boolean mask, and a pixel counts exactly when its mask
entry is `true` (`density.py` `create_brightness_arrays`, where every
count is taken of `... * self.cropped_mask`). -/
def maskedValues (img : List Nat) (mask : List Bool) : List Nat :=
  (img.zip mask).filterMap (fun p => if p.2 then some p.1 else none)

/-- `self.number_total_pixels` (`density.py` line 121): the number of
non-NaN pixels under the mask; grayscale ubyte values are never NaN, so
this is the number of mask-included pixels. -/
def number_total_pixels (img : List Nat) (mask : List Bool) : Nat :=
  (maskedValues img mask).length

/-- `self.brightness_counts[i]` (`density.py` lines 133-138):
`np.count_nonzero((grey_photo == i) * cropped_mask)`. -/
def brightness_counts (img : List Nat) (mask : List Bool) (i : Nat) : Nat :=
  (maskedValues img mask).countP (fun v => v == i)

/-- `self.brightness_cumulative[i]` (`density.py` lines 143-148):
`np.count_nonzero((grey_photo < i + 1) * cropped_mask)`. -/
def brightness_cumulative (img : List Nat) (mask : List Bool) (i : Nat) : Nat :=
  (maskedValues img mask).countP (fun v => decide (v < i + 1))

/-- `np.amax(counts)`: the largest entry of a (nonempty) list of counts. -/
def amaxList (l : List Nat) : Nat := l.foldr max 0

/-- `np.where(counts == np.amax(counts))[0]`: the ascending list of
indices at which the maximum count is attained. -/
def whereMax (l : List Nat) : List Nat :=
  (List.range l.length).filter (fun i => l.getD i 0 == amaxList l)

/-- `int(np.where(counts == np.amax(counts))[0])` (`density.py` lines
237-239): converting the index array to `int` succeeds only when it has
exactly one element (`some i`); with zero or two or more elements numpy
raises a `TypeError`, modelled as `none`. -/
def brightness_peak (l : List Nat) : Option Nat :=
  match whereMax l with
  | [i] => some i
  | _ => none

/-- 4-connectivity of grid pixels (`connectivity=1`, the default used by
`skimage.morphology.remove_small_holes` / `remove_small_objects`). -/
def adjB {m n : Nat} (a b : Fin m × Fin n) : Bool :=
  (a.1 == b.1 && (a.2.val + 1 == b.2.val || b.2.val + 1 == a.2.val)) ||
  (a.2 == b.2 && (a.1.val + 1 == b.1.val || b.1.val + 1 == a.1.val))

/-- One step of flood fill over the foreground pixels of `p`: add every
foreground pixel adjacent to the set built so far. -/
def floodStep {m n : Nat} (p : Fin m × Fin n → Bool) (s : Finset (Fin m × Fin n)) :
    Finset (Fin m × Fin n) :=
  s ∪ Finset.univ.filter (fun q => p q = true ∧ ∃ r ∈ s, adjB r q = true)

/-- The connected component (4-connectivity) of foreground pixel `x` in
the binary image `p`, computed by running flood fill to saturation
(`m * n` steps certainly suffice on an `m × n` grid). -/
def component {m n : Nat} (p : Fin m × Fin n → Bool) (x : Fin m × Fin n) :
    Finset (Fin m × Fin n) :=
  if p x = true then (floodStep p)^[m * n] {x} else ∅

/-- Modelled from the skimage documentation and implementation of
`skimage.morphology.remove_small_objects(ar, min_size)`: connected
foreground components whose pixel area is below `min_size` are removed;
a pixel survives iff it is foreground and its component has at least
`min_size` pixels. -/
def remove_small_objects {m n : Nat} (p : Fin m × Fin n → Bool) (min_size : Nat) :
    Fin m × Fin n → Bool :=
  fun q => p q && decide (min_size ≤ (component p q).card)

/-- Modelled from the skimage implementation of
`skimage.morphology.remove_small_holes(ar, area_threshold)`: logically
negate the image, remove small objects of the negation with
`min_size = area_threshold`, and negate back. -/
def remove_small_holes {m n : Nat} (p : Fin m × Fin n → Bool) (area_threshold : Nat) :
    Fin m × Fin n → Bool :=
  fun q => !(remove_small_objects (fun z => !(p z)) area_threshold q)

/-- Shallow embedding of `Pinholer.big_holes` (`pinholes.py` lines
161-172): `np.invert(remove_small_holes(np.invert(photo),
area_threshold=minimum_size))`. -/
def big_holes {m n : Nat} (p : Fin m × Fin n → Bool) (minimum_size : Nat) :
    Fin m × Fin n → Bool :=
  fun q => !(remove_small_holes (fun z => !(p z)) minimum_size q)

/-- Connectivity of two pixels through the foreground of `p`: the
reflexive-transitive closure of 4-adjacency restricted to foreground
pixels.  `{y | reaches p x y}` is the mathematical connected component
of `x`. -/
def reaches {m n : Nat} (p : Fin m × Fin n → Bool) (x y : Fin m × Fin n) : Prop :=
  Relation.ReflTransGen (fun a b => adjB a b = true ∧ p a = true ∧ p b = true) x y

theorem convert_OD_exact_check :
    convert_OD [(255, 0), (100, 3.8), (2, 5.7)] 100 = ODResult.density 3.8 := by
  norm_num [convert_OD, index_above, index_below, odKeyAbove, odKeyBelow,
    argminKey, argminAux, round3, roundHalfEven, List.find?, List.range']

theorem convert_OD_mid_check :
    convert_OD [(100, 3.8), (0, 5.8)] 50 = ODResult.density 4.8 := by
  norm_num [convert_OD, index_above, index_below, odKeyAbove, odKeyBelow,
    argminKey, argminAux, round3, roundHalfEven, List.find?, List.range']

/-- Helper: the default-valued last element of a nonempty list is a
member of the list. -/
lemma getLastD_mem {α : Type} : ∀ (l : List α) (d : α), l ≠ [] → l.getLastD d ∈ l := by
  intro l
  induction l with
  | nil => intro d h; exact absurd rfl h
  | cons a t ih =>
    intro d _
    cases t with
    | nil => simp
    | cons b u =>
      rw [List.getLastD_cons]
      exact List.mem_cons_of_mem a (ih a (by simp))

/-- Helper: `getLastD` of an append with nonempty right part ignores the
left part and the default. -/
lemma getLastD_append_cons {α : Type} :
    ∀ (l₁ : List α) (x : α) (l₂ : List α) (d : α),
      (l₁ ++ x :: l₂).getLastD d = l₂.getLastD x := by
  intro l₁
  induction l₁ with
  | nil => intro x l₂ d; rw [List.nil_append, List.getLastD_cons]
  | cons a t ih =>
    intro x l₂ d
    rw [List.cons_append, List.getLastD_cons]
    exact ih x l₂ a

/-- Helper: `getD` on the left part of an append. -/
lemma getD_append_left {α : Type} :
    ∀ (l₁ l₂ : List α) (j : Nat) (d : α), j < l₁.length →
      (l₁ ++ l₂).getD j d = l₁.getD j d := by
  intro l₁
  induction l₁ with
  | nil => intro l₂ j d h; simp at h
  | cons a t ih =>
    intro l₂ j d h
    cases j with
    | zero => simp
    | succ k =>
      simp only [List.cons_append, List.getD_cons_succ]
      exact ih l₂ k d (by simpa using h)

/-- Helper: `getD` past the left part of an append. -/
lemma getD_append_right {α : Type} :
    ∀ (l₁ l₂ : List α) (k : Nat) (d : α),
      (l₁ ++ l₂).getD (l₁.length + k) d = l₂.getD k d := by
  intro l₁
  induction l₁ with
  | nil => intro l₂ k d; simp
  | cons a t ih =>
    intro l₂ k d
    simp only [List.cons_append, List.length_cons]
    rw [Nat.succ_add, List.getD_cons_succ]
    exact ih l₂ k d

/-- Helper: in a measured-descending list every element's measured value
is at most the head's. -/
lemma pairwise_desc_head_max {l : List (ℚ × ℚ)} {x : ℚ × ℚ}
    (h : List.Pairwise (fun a b : ℚ × ℚ => b.1 < a.1) (x :: l)) :
    ∀ p ∈ x :: l, p.1 ≤ x.1 := by
  intro p hp
  rcases List.mem_cons.mp hp with rfl | hp
  · exact le_refl _
  · exact le_of_lt ((List.pairwise_cons.mp h).1 p hp)

/-- Helper: in a measured-descending list every element's measured value
is at least the (default-valued) last one's. -/
lemma pairwise_desc_last_min :
    ∀ (l : List (ℚ × ℚ)) (d : ℚ × ℚ),
      List.Pairwise (fun a b : ℚ × ℚ => b.1 < a.1) l →
      ∀ p ∈ l, (l.getLastD d).1 ≤ p.1 := by
  intro l
  induction l with
  | nil => intro d _ p hp; simp at hp
  | cons a t ih =>
    intro d hsort p hp
    cases t with
    | nil =>
      rcases List.mem_cons.mp hp with rfl | hp
      · simp
      · simp at hp
    | cons b u =>
      rw [List.getLastD_cons]
      rcases List.mem_cons.mp hp with heq | hp
      · subst heq
        have hmem : (b :: u).getLastD p ∈ b :: u := getLastD_mem _ _ (by simp)
        exact le_of_lt ((List.pairwise_cons.mp hsort).1 _ hmem)
      · exact ih a (List.pairwise_cons.mp hsort).2 p hp

/-- Helper: in a measured-descending list, `find?` for an exact measured
match returns the pair itself. -/
lemma find_exact_of_pairwise_desc {v d : ℚ} :
    ∀ (l : List (ℚ × ℚ)),
      List.Pairwise (fun a b : ℚ × ℚ => b.1 < a.1) l → (v, d) ∈ l →
      l.find? (fun p => decide (p.1 = v)) = some (v, d) := by
  intro l
  induction l with
  | nil => intro _ hmem; simp at hmem
  | cons a t ih =>
    intro hsort hmem
    rcases List.mem_cons.mp hmem with rfl | hmem
    · rw [List.find?_cons_of_pos]
      simp
    · have hlt : v < a.1 := (List.pairwise_cons.mp hsort).1 _ hmem
      rw [List.find?_cons_of_neg]
      · exact ih (List.pairwise_cons.mp hsort).2 hmem
      · simpa using ne_of_gt hlt

/-- Helper: `argminAux` returns either its starting best index or an
element of the scanned list, its key is at most the starting best's key,
and its key is at most every scanned key. -/
lemma argminAux_min (key : Nat → ℚ) :
    ∀ (l : List Nat) (b : Nat),
      (argminAux key l b = b ∨ argminAux key l b ∈ l) ∧
      key (argminAux key l b) ≤ key b ∧
      ∀ j ∈ l, key (argminAux key l b) ≤ key j := by
  intro l
  induction l with
  | nil => intro b; exact ⟨Or.inl rfl, le_refl _, by simp⟩
  | cons i rest ih =>
    intro b
    rw [argminAux]
    by_cases hib : key i < key b
    · rw [if_pos hib]
      obtain ⟨hmem, hle, hall⟩ := ih i
      refine ⟨?_, ?_, ?_⟩
      · rcases hmem with h | h
        · exact Or.inr (by rw [h]; exact List.mem_cons_self i rest)
        · exact Or.inr (List.mem_cons_of_mem i h)
      · exact le_trans hle (le_of_lt hib)
      · intro j hj
        rcases List.mem_cons.mp hj with rfl | hj
        · exact hle
        · exact hall j hj
    · rw [if_neg hib]
      obtain ⟨hmem, hle, hall⟩ := ih b
      refine ⟨?_, hle, ?_⟩
      · rcases hmem with h | h
        · exact Or.inl h
        · exact Or.inr (List.mem_cons_of_mem i h)
      · intro j hj
        rcases List.mem_cons.mp hj with rfl | hj
        · exact le_trans hle (not_lt.mp hib)
        · exact hall j hj

/-- Helper: `argminKey` finds the unique strict minimizer of the key over
`0, ..., n-1` (Python's `min(range(n), key=...)`). -/
lemma argminKey_eq_of_strict_min (key : Nat → ℚ) (n i : Nat) (hi : i < n)
    (hmin : ∀ j, j < n → j ≠ i → key i < key j) : argminKey key n = i := by
  unfold argminKey
  obtain ⟨hmem, hle, hall⟩ := argminAux_min key (List.range' 1 (n - 1)) 0
  set r := argminAux key (List.range' 1 (n - 1)) 0 with hr
  have hrn : r < n := by
    rcases hmem with h | h
    · omega
    · have := (List.mem_range'_1).mp h
      omega
  have hri : key r ≤ key i := by
    rcases Nat.eq_zero_or_pos i with rfl | hpos
    · exact hle
    · exact hall i ((List.mem_range'_1).mpr (by omega))
  by_contra hne
  exact absurd (hmin r hrn hne) (not_lt.mpr hri)

/-- Helper: iterating an extensive map on finsets only grows the set. -/
lemma subset_iterate {α : Type} [DecidableEq α] (f : Finset α → Finset α)
    (hf : ∀ s, s ⊆ f s) : ∀ (k : Nat) (s : Finset α), s ⊆ f^[k] s := by
  intro k
  induction k with
  | zero => intro s; simp
  | succ k ih =>
    intro s
    rw [Function.iterate_succ_apply]
    exact le_trans (hf s) (ih (f s))

/-- Helper: iterates of an extensive map are monotone in the step count. -/
lemma iterate_le_iterate {α : Type} [DecidableEq α] (f : Finset α → Finset α)
    (hf : ∀ s, s ⊆ f s) (k j : Nat) (s : Finset α) (h : k ≤ j) :
    f^[k] s ⊆ f^[j] s := by
  obtain ⟨c, rfl⟩ := Nat.exists_eq_add_of_le h
  rw [Nat.add_comm, Function.iterate_add_apply]
  exact subset_iterate f hf c (f^[k] s)

/-- Helper: while no fixpoint has been hit, the iterate's cardinality
grows at least linearly. -/
lemma card_iterate_grows {α : Type} [DecidableEq α] (f : Finset α → Finset α)
    (hf : ∀ s, s ⊆ f s) (s : Finset α) :
    ∀ k : Nat, (∀ j, j < k → f^[j + 1] s ≠ f^[j] s) → k ≤ (f^[k] s).card := by
  intro k
  induction k with
  | zero => intro _; exact Nat.zero_le _
  | succ k ih =>
    intro hne
    have h1 : k ≤ (f^[k] s).card := ih (fun j hj => hne j (Nat.lt_succ_of_lt hj))
    have h2 : f^[k] s ⊆ f^[k + 1] s := by
      rw [Function.iterate_succ_apply']
      exact hf (f^[k] s)
    have h3 : (f^[k] s).card < (f^[k + 1] s).card :=
      Finset.card_lt_card (lt_of_le_of_ne h2 (Ne.symm (hne k (Nat.lt_succ_self k))))
    omega

/-- Helper: on a fintype, an extensive map on finsets hits a fixpoint
within `Fintype.card α` steps. -/
lemma exists_iterate_fix {α : Type} [DecidableEq α] [Fintype α]
    (f : Finset α → Finset α) (hf : ∀ s, s ⊆ f s) (s : Finset α) :
    ∃ k, k ≤ Fintype.card α ∧ f^[k + 1] s = f^[k] s := by
  by_contra hcon
  push_neg at hcon
  have hgrow : Fintype.card α + 1 ≤ (f^[Fintype.card α + 1] s).card :=
    card_iterate_grows f hf s (Fintype.card α + 1)
      (fun j hj => hcon j (Nat.lt_succ_iff.mp hj))
  have hcard : (f^[Fintype.card α + 1] s).card ≤ Fintype.card α := by
    rw [← Finset.card_univ]
    exact Finset.card_le_univ _
  omega

/-- Helper: once a fixpoint is hit the iterates are constant. -/
lemma iterate_eq_of_fix {α : Type} [DecidableEq α] (f : Finset α → Finset α)
    {s : Finset α} {k : Nat} (h : f^[k + 1] s = f^[k] s) :
    ∀ j, k ≤ j → f^[j] s = f^[k] s := by
  intro j hj
  induction j, hj using Nat.le_induction with
  | base => rfl
  | succ j hj ih =>
    rw [Function.iterate_succ_apply', ih, ← Function.iterate_succ_apply' f k s, h]

/-- Helper: every iterate of an extensive map on a fintype is contained in
the `Fintype.card α`-th iterate. -/
lemma iterate_subset_iterate_card {α : Type} [DecidableEq α] [Fintype α]
    (f : Finset α → Finset α) (hf : ∀ s, s ⊆ f s) (s : Finset α) (k : Nat) :
    f^[k] s ⊆ f^[Fintype.card α] s := by
  obtain ⟨k₀, hk₀, hfix⟩ := exists_iterate_fix f hf s
  rcases le_or_lt k (Fintype.card α) with h | h
  · exact iterate_le_iterate f hf k (Fintype.card α) s h
  · rw [iterate_eq_of_fix f hfix k (by omega),
      iterate_eq_of_fix f hfix (Fintype.card α) hk₀]

/-- Helper: `floodStep` is extensive. -/
lemma floodStep_extensive {m n : Nat} (p : Fin m × Fin n → Bool) :
    ∀ s : Finset (Fin m × Fin n), s ⊆ floodStep p s := by
  intro s
  exact Finset.subset_union_left

/-- Helper: every pixel connected to `x` through the foreground has
`p` true there. -/
lemma reaches_foreground {m n : Nat} {p : Fin m × Fin n → Bool}
    {x y : Fin m × Fin n} (hx : p x = true) (h : reaches p x y) : p y = true := by
  induction h with
  | refl => exact hx
  | tail _ hstep _ => exact hstep.2.2

/-- Helper: everything collected by flood fill from `x` is reachable from
`x` through the foreground. -/
lemma iterate_floodStep_reaches {m n : Nat} {p : Fin m × Fin n → Bool}
    {x : Fin m × Fin n} (hx : p x = true) :
    ∀ (k : Nat) (y : Fin m × Fin n), y ∈ (floodStep p)^[k] {x} → reaches p x y := by
  intro k
  induction k with
  | zero =>
    intro y hy
    simp only [Function.iterate_zero, id_eq, Finset.mem_singleton] at hy
    subst hy
    exact Relation.ReflTransGen.refl
  | succ k ih =>
    intro y hy
    rw [Function.iterate_succ_apply'] at hy
    rcases Finset.mem_union.mp hy with h | h
    · exact ih y h
    · obtain ⟨_, hpy, r, hr, hadj⟩ := Finset.mem_filter.mp h
      have hreach := ih r hr
      exact Relation.ReflTransGen.tail hreach
        ⟨hadj, reaches_foreground hx hreach, hpy⟩

/-- Helper: everything reachable from `x` through the foreground is
collected by `m * n` flood-fill steps. -/
lemma reaches_mem_iterate {m n : Nat} {p : Fin m × Fin n → Bool}
    {x y : Fin m × Fin n} (h : reaches p x y) :
    y ∈ (floodStep p)^[m * n] {x} := by
  have hcard : Fintype.card (Fin m × Fin n) = m * n := by simp
  induction h with
  | refl =>
    exact subset_iterate (floodStep p) (floodStep_extensive p) (m * n) {x}
      (Finset.mem_singleton_self x)
  | tail hxb hstep ih =>
    have hmem : _ ∈ floodStep p ((floodStep p)^[m * n] {x}) :=
      Finset.mem_union_right _ (Finset.mem_filter.mpr
        ⟨Finset.mem_univ _, hstep.2.2, _, ih, hstep.1⟩)
    rw [← Function.iterate_succ_apply' (floodStep p) (m * n) {x}] at hmem
    have := iterate_subset_iterate_card (floodStep p) (floodStep_extensive p)
      {x} (m * n + 1)
    rw [hcard] at this
    exact this hmem

/-- Helper: the flood-fill `component` of a foreground pixel is exactly
its reachability class. -/
lemma mem_component_iff {m n : Nat} {p : Fin m × Fin n → Bool}
    {x : Fin m × Fin n} (hx : p x = true) (y : Fin m × Fin n) :
    y ∈ component p x ↔ reaches p x y := by
  rw [component, if_pos hx]
  exact ⟨iterate_floodStep_reaches hx (m * n) y, reaches_mem_iterate⟩

/-- C9: after the invert / remove-small-holes / re-invert step of
`Pinholer.big_holes`, a pixel of the binarized image survives exactly when
it is a hole pixel whose connected hole region (reachability through hole
pixels) has pixel area at least the calibration's `minimum_size`; every
hole whose area is below `minimum_size` is removed. -/
theorem big_holes_survives_iff {m n : Nat} (p : Fin m × Fin n → Bool)
    (minimum_size : Nat) (x : Fin m × Fin n) :
    big_holes p minimum_size x = true ↔
      (p x = true ∧ minimum_size ≤ Set.ncard {y | reaches p x y}) := by
  have h1 : big_holes p minimum_size x = remove_small_objects p minimum_size x := by
    unfold big_holes remove_small_holes
    simp only [Bool.not_not]
  rw [h1]
  unfold remove_small_objects
  rw [Bool.and_eq_true, decide_eq_true_eq]
  by_cases hx : p x = true
  · have hset : {y | reaches p x y} = (↑(component p x) : Set (Fin m × Fin n)) := by
      ext y
      simp only [Set.mem_setOf_eq, Finset.coe_mem, Finset.mem_coe]
      exact (mem_component_iff hx y).symm
    rw [hset, Set.ncard_coe_Finset]
  · simp [hx]

/-- C4 (code bug exhibit): `grow = 1.5` lies outside the documented valid
interval `[0.5, 1)`, yet the guard of `Photo.automask` does not raise —
`(not (grow >= 0.5)) and (grow < 1)` is `False` for every `grow ≥ 1`
because of the misplaced `not`. -/
theorem automask_grow_guard_miss :
    automask_grow_raises (3 / 2) = false ∧ ¬ ((1 / 2 : ℚ) ≤ 3 / 2 ∧ (3 / 2 : ℚ) < 1) := by
  constructor
  · norm_num [automask_grow_raises]
  · norm_num

/-- C5 (code bug exhibit): on a photo whose smaller side is `100` pixels,
`margin = 60` exceeds half the smaller dimension, yet the margin guard of
`crop_photo` does not raise — `(not (margin >= 0)) and (...)` is `False`
for every nonnegative margin because of the misplaced `not`. -/
theorem crop_margin_guard_miss :
    crop_margin_raises 60 100 = false ∧ ¬ ((0 : ℚ) ≤ 60 ∧ (60 : ℚ) ≤ 100 / 2) := by
  constructor
  · norm_num [crop_margin_raises]
  · norm_num

/-- C6 (code bug exhibit): a 100×150 mask paired with a 100×200 photo has
a mismatched width, yet the dimension check of `Photo.mask_file` does not
raise — `(not (height == mask_height)) and (width == mask_width)` is
`False` whenever the heights agree, because of the misplaced `not`. -/
theorem mask_dims_guard_miss :
    mask_dims_raise 100 200 100 150 = false ∧ (200 : Nat) ≠ 150 := by
  constructor
  · rfl
  · decide

/-- C7: for ascending breakpoints `s1 < s2 < s3 < s4` the classification
of `extract_pinhole_details` is a total partition of the diameters:
category 1 iff `d < s1`, category `k ∈ {2,3,4}` iff
`s_(k-1) ≤ d < s_k`, category 5 iff `s4 ≤ d`, and the category is always
one of `1, ..., 5`. -/
theorem pinhole_category_partition (s1 s2 s3 s4 d : ℚ)
    (h12 : s1 < s2) (h23 : s2 < s3) (h34 : s3 < s4) :
    (pinhole_category s1 s2 s3 s4 d = 1 ↔ d < s1) ∧
    (pinhole_category s1 s2 s3 s4 d = 2 ↔ s1 ≤ d ∧ d < s2) ∧
    (pinhole_category s1 s2 s3 s4 d = 3 ↔ s2 ≤ d ∧ d < s3) ∧
    (pinhole_category s1 s2 s3 s4 d = 4 ↔ s3 ≤ d ∧ d < s4) ∧
    (pinhole_category s1 s2 s3 s4 d = 5 ↔ s4 ≤ d) ∧
    1 ≤ pinhole_category s1 s2 s3 s4 d ∧ pinhole_category s1 s2 s3 s4 d ≤ 5 := by
  have e1 : pinhole_category s1 s2 s3 s4 d = 1 ↔ d < s1 := by
    unfold pinhole_category
    split_ifs <;> simp <;> linarith
  have e2 : pinhole_category s1 s2 s3 s4 d = 2 ↔ s1 ≤ d ∧ d < s2 := by
    unfold pinhole_category
    split_ifs with hc1 hc2 hc3 hc4 <;> refine ⟨fun h => ?_, fun h => ?_⟩ <;>
      first | rfl | (constructor <;> linarith) | (exfalso; rcases h with ⟨ha, hb⟩; linarith)
  have e3 : pinhole_category s1 s2 s3 s4 d = 3 ↔ s2 ≤ d ∧ d < s3 := by
    unfold pinhole_category
    split_ifs with hc1 hc2 hc3 hc4 <;> refine ⟨fun h => ?_, fun h => ?_⟩ <;>
      first | rfl | (constructor <;> linarith) | (exfalso; rcases h with ⟨ha, hb⟩; linarith)
  have e4 : pinhole_category s1 s2 s3 s4 d = 4 ↔ s3 ≤ d ∧ d < s4 := by
    unfold pinhole_category
    split_ifs with hc1 hc2 hc3 hc4 <;> refine ⟨fun h => ?_, fun h => ?_⟩ <;>
      first | rfl | (constructor <;> linarith) | (exfalso; rcases h with ⟨ha, hb⟩; linarith)
  have e5 : pinhole_category s1 s2 s3 s4 d = 5 ↔ s4 ≤ d := by
    unfold pinhole_category
    split_ifs <;> simp <;> linarith
  have e6 : 1 ≤ pinhole_category s1 s2 s3 s4 d := by
    unfold pinhole_category
    split_ifs <;> omega
  have e7 : pinhole_category s1 s2 s3 s4 d ≤ 5 := by
    unfold pinhole_category
    split_ifs <;> omega
  exact ⟨e1, e2, e3, e4, e5, e6, e7⟩

/-- C7 witness: with the breakpoints `[50, 100, 150, 350]` of
`PINHOLE_CLASS_STEPS`, diameter 49 falls in category 1, exactly 50 in
category 2, and exactly 350 in category 5. -/
theorem pinhole_category_partition_witness :
    pinhole_category 50 100 150 350 49 = 1 ∧
    pinhole_category 50 100 150 350 50 = 2 ∧
    pinhole_category 50 100 150 350 350 = 5 := by
  refine ⟨?_, ?_, ?_⟩
  · exact (pinhole_category_partition 50 100 150 350 49 (by norm_num) (by norm_num)
      (by norm_num)).1.mpr (by norm_num)
  · exact (pinhole_category_partition 50 100 150 350 50 (by norm_num) (by norm_num)
      (by norm_num)).2.1.mpr ⟨by norm_num, by norm_num⟩
  · exact (pinhole_category_partition 50 100 150 350 350 (by norm_num) (by norm_num)
      (by norm_num)).2.2.2.2.1.mpr (by norm_num)

/-- C1: if the weighted-mean brightness is strictly above every measured
calibration value (in particular above the largest) or strictly below
every measured value (in particular below the smallest), `convert_OD`
returns the `None` sentinel: it neither raises nor extrapolates. -/
theorem convert_OD_out_of_range_noResult (params : List (ℚ × ℚ)) (v : ℚ)
    (hne : params ≠ [])
    (hout : (∀ p ∈ params, p.1 < v) ∨ (∀ p ∈ params, v < p.1)) :
    convert_OD params v = ODResult.noResult := by
  have hhead : params.headI ∈ params := by
    cases params with
    | nil => exact absurd rfl hne
    | cons a t => exact List.mem_cons_self a t
  rcases hout with h | h
  · unfold convert_OD
    rw [if_pos (show v > params.headI.1 from h _ hhead)]
  · have h1 : ¬ v > params.headI.1 := not_lt.mpr (le_of_lt (h _ hhead))
    have h2 : v < (params.getLastD (0, 0)).1 := h _ (getLastD_mem _ _ hne)
    unfold convert_OD
    rw [if_neg h1, if_pos h2]

/-- C1 witness: brightness 255 is brighter than the brightest point of
`CALIBRATION_A` (≈ 254.99999999999986), and `convert_OD` returns the
sentinel. -/
theorem convert_OD_out_of_range_noResult_witness :
    convert_OD CALIBRATION_A_parameters 255 = ODResult.noResult :=
  convert_OD_out_of_range_noResult CALIBRATION_A_parameters 255
    (by simp [CALIBRATION_A_parameters])
    (Or.inl (by norm_num [CALIBRATION_A_parameters]))

/-- Helper: the fold computing `np.amax` returns an element of a nonempty
list of counts. -/
lemma foldr_max_mem : ∀ l : List Nat, l ≠ [] → l.foldr max 0 ∈ l := by
  intro l
  induction l with
  | nil => intro h; exact absurd rfl h
  | cons a t ih =>
    intro _
    cases t with
    | nil => simp
    | cons b u =>
      rcases max_choice a ((b :: u).foldr max 0) with h | h
      · rw [List.foldr_cons, h]
        exact List.mem_cons_self _ _
      · rw [List.foldr_cons, h]
        exact List.mem_cons_of_mem a (ih (by simp))

/-- Helper: membership in `whereMax`. -/
lemma mem_whereMax (l : List Nat) (k : Nat) :
    k ∈ whereMax l ↔ (k < l.length ∧ l.getD k 0 = amaxList l) := by
  simp [whereMax, List.mem_filter, List.mem_range]

/-- Helper: `whereMax` has no duplicate indices. -/
lemma whereMax_nodup (l : List Nat) : (whereMax l).Nodup :=
  (List.nodup_range l.length).filter _

/-- Helper: a nonempty histogram has at least one maximizing index. -/
lemma whereMax_ne_nil (l : List Nat) (hne : l ≠ []) : whereMax l ≠ [] := by
  have hmem := foldr_max_mem l hne
  obtain ⟨⟨k, hk⟩, hget⟩ := List.mem_iff_get.mp hmem
  intro hcon
  have hkW : k ∈ whereMax l := by
    refine (mem_whereMax l k).mpr ⟨hk, ?_⟩
    rw [List.getD_eq_get l 0 hk, hget]
    rfl
  rw [hcon] at hkW
  simp at hkW

/-- C10: the brightness-peak computation
`int(np.where(counts == np.amax(counts))[0])` succeeds (returns `some`)
iff the maximum count is attained at a unique index, and fails (the `int`
conversion raises, modelled as `none`) iff two or more indices tie for the
maximum count. -/
theorem brightness_peak_unique_iff (l : List Nat) (hne : l ≠ []) :
    ((∃ i, brightness_peak l = some i) ↔
      (∃! i, i < l.length ∧ l.getD i 0 = amaxList l)) ∧
    (brightness_peak l = none ↔
      ∃ i j, i < j ∧ j < l.length ∧
        l.getD i 0 = amaxList l ∧ l.getD j 0 = amaxList l) := by
  have hWne := whereMax_ne_nil l hne
  have hnd := whereMax_nodup l
  rcases hW : whereMax l with _ | ⟨a, t⟩
  · exact absurd hW hWne
  cases t with
  | nil =>
    have hpeak : brightness_peak l = some a := by
      simp only [brightness_peak, hW]
    constructor
    · constructor
      · intro _
        refine ⟨a, (mem_whereMax l a).mp (by rw [hW]; exact List.mem_cons_self a []), ?_⟩
        intro j hj
        have hjW : j ∈ whereMax l := (mem_whereMax l j).mpr hj
        rw [hW] at hjW
        simpa using hjW
      · intro _
        exact ⟨a, hpeak⟩
    · constructor
      · intro hnone
        rw [hpeak] at hnone
        exact absurd hnone (by simp)
      · rintro ⟨i, j, hij, hjl, hi, hj⟩
        have hiW : i ∈ whereMax l := (mem_whereMax l i).mpr ⟨by omega, hi⟩
        have hjW : j ∈ whereMax l := (mem_whereMax l j).mpr ⟨hjl, hj⟩
        rw [hW] at hiW hjW
        simp at hiW hjW
        omega
  | cons b u =>
    have hpeak : brightness_peak l = none := by
      simp only [brightness_peak, hW]
    have haW : a ∈ whereMax l := by
      rw [hW]; exact List.mem_cons_self _ _
    have hbW : b ∈ whereMax l := by
      rw [hW]; exact List.mem_cons_of_mem _ (List.mem_cons_self _ _)
    have hab : a ≠ b := by
      rw [hW] at hnd
      have hna := (List.nodup_cons.mp hnd).1
      intro hcon
      exact hna (hcon ▸ List.mem_cons_self b u)
    have ha := (mem_whereMax l a).mp haW
    have hb := (mem_whereMax l b).mp hbW
    constructor
    · constructor
      · rintro ⟨i, hi⟩
        rw [hpeak] at hi
        exact absurd hi (by simp)
      · rintro ⟨i, _, huniq⟩
        exact absurd ((huniq a ha).trans (huniq b hb).symm) hab
    · constructor
      · intro _
        rcases Nat.lt_trichotomy a b with h | h | h
        · exact ⟨a, b, h, hb.1, ha.2, hb.2⟩
        · exact absurd h hab
        · exact ⟨b, a, h, ha.1, hb.2, ha.2⟩
      · intro _
        exact hpeak

/-- C10 witness: the histogram `[1, 3, 2]` is nonempty, so the theorem
applies: the peak computation succeeds iff the maximum `3` is attained
uniquely (it is, at index 1). -/
theorem brightness_peak_unique_iff_witness :
    ((∃ i, brightness_peak [1, 3, 2] = some i) ↔
      (∃! i, i < ([1, 3, 2] : List Nat).length ∧
        List.getD [1, 3, 2] i 0 = amaxList [1, 3, 2])) ∧
    (brightness_peak [1, 3, 2] = none ↔
      ∃ i j, i < j ∧ j < ([1, 3, 2] : List Nat).length ∧
        List.getD [1, 3, 2] i 0 = amaxList [1, 3, 2] ∧
        List.getD [1, 3, 2] j 0 = amaxList [1, 3, 2]) :=
  brightness_peak_unique_iff [1, 3, 2] (by simp)

/-- Helper: when all values are below `N`, summing the per-value counts
over `0, ..., N-1` counts every element exactly once. -/
lemma sum_countP_eq_length (N : Nat) :
    ∀ l : List Nat, (∀ v ∈ l, v < N) →
      (∑ i in Finset.range N, l.countP (fun v => v == i)) = l.length := by
  intro l
  induction l with
  | nil => simp
  | cons a t ih =>
    intro hb
    have hbt : ∀ v ∈ t, v < N := fun v hv => hb v (List.mem_cons_of_mem a hv)
    have hstep : ∀ i ∈ Finset.range N, List.countP (fun v => v == i) (a :: t) =
        List.countP (fun v => v == i) t + if a = i then 1 else 0 := by
      intro i _
      rw [List.countP_cons]
      congr 1
      by_cases hai : a = i
      · simp [hai]
      · simp [hai]
    rw [Finset.sum_congr rfl hstep, Finset.sum_add_distrib, ih hbt]
    have hone : (∑ i in Finset.range N, if a = i then 1 else 0) = 1 := by
      rw [Finset.sum_ite_eq (Finset.range N) a (fun _ => 1)]
      simp [Finset.mem_range.mpr (hb a (List.mem_cons_self a t))]
    rw [hone, List.length_cons]

/-- C8: for every 8-bit grayscale photo and mask, the 256-bin histogram of
`create_brightness_arrays` satisfies: the bin counts sum to the number of
mask-included pixels, the cumulative counts are monotonically
non-decreasing, and the final cumulative entry equals the total included
pixel count. -/
theorem brightness_arrays_invariants (img : List Nat) (mask : List Bool)
    (hbound : ∀ v ∈ maskedValues img mask, v < 256) :
    (∑ i in Finset.range 256, brightness_counts img mask i
        = number_total_pixels img mask) ∧
    (∀ i j, i ≤ j →
      brightness_cumulative img mask i ≤ brightness_cumulative img mask j) ∧
    brightness_cumulative img mask 255 = number_total_pixels img mask := by
  refine ⟨?_, ?_, ?_⟩
  · exact sum_countP_eq_length 256 (maskedValues img mask) hbound
  · intro i j hij
    unfold brightness_cumulative
    refine List.countP_mono_left ?_
    intro v _ hv
    simp only [decide_eq_true_eq] at hv ⊢
    omega
  · unfold brightness_cumulative number_total_pixels
    rw [List.countP_eq_length]
    intro v hv
    simp only [decide_eq_true_eq]
    exact hbound v hv

/-- C8 witness: a concrete 4-pixel photo with a 3-pixel mask; the bound
hypothesis holds by computation and the invariants follow from the
theorem. -/
theorem brightness_arrays_invariants_witness :
    (∑ i in Finset.range 256,
        brightness_counts [0, 255, 7, 7] [true, false, true, true] i
      = number_total_pixels [0, 255, 7, 7] [true, false, true, true]) ∧
    (∀ i j, i ≤ j →
      brightness_cumulative [0, 255, 7, 7] [true, false, true, true] i ≤
        brightness_cumulative [0, 255, 7, 7] [true, false, true, true] j) ∧
    brightness_cumulative [0, 255, 7, 7] [true, false, true, true] 255
      = number_total_pixels [0, 255, 7, 7] [true, false, true, true] :=
  brightness_arrays_invariants [0, 255, 7, 7] [true, false, true, true] (by decide)

/-- Helper: in a measured-descending list every measured value is at most
the head's measured value. -/
lemma pairwise_desc_headI_max {l : List (ℚ × ℚ)}
    (h : List.Pairwise (fun a b : ℚ × ℚ => b.1 < a.1) l) :
    ∀ p ∈ l, p.1 ≤ l.headI.1 := by
  cases l with
  | nil => simp
  | cons x xs => exact pairwise_desc_head_max h

/-- C2: feeding a measured value of a strictly descending calibration
table back into `convert_OD` returns that pair's physical value through
the exact-match branch, exactly when the physical value is unchanged by
rounding to 3 decimals (as all `CALIBRATION_A` physical values are). -/
theorem convert_OD_exact_match (params : List (ℚ × ℚ)) (v d : ℚ)
    (hdesc : List.Pairwise (fun a b : ℚ × ℚ => b.1 < a.1) params)
    (hmem : (v, d) ∈ params) (hround : round3 d = d) :
    convert_OD params v = ODResult.density d := by
  have h1 : ¬ v > params.headI.1 :=
    not_lt.mpr (pairwise_desc_headI_max hdesc (v, d) hmem)
  have h2 : ¬ v < (params.getLastD (0, 0)).1 :=
    not_lt.mpr (pairwise_desc_last_min params (0, 0) hdesc (v, d) hmem)
  have h3 := find_exact_of_pairwise_desc params hdesc hmem
  unfold convert_OD
  rw [if_neg h1, if_neg h2]
  simp only [h3, hround]

/-- C2 witness: `CALIBRATION_A`'s fourth table point: measured value
`100.3155623762223` maps back to exactly its physical value `3.808`. -/
theorem convert_OD_exact_match_witness :
    convert_OD CALIBRATION_A_parameters 100.3155623762223 =
      ODResult.density 3.808 :=
  convert_OD_exact_match CALIBRATION_A_parameters 100.3155623762223 3.808
    (by norm_num [CALIBRATION_A_parameters, List.pairwise_cons])
    (by simp [CALIBRATION_A_parameters])
    (by norm_num [round3, roundHalfEven])

/-- C3 counterexample: for the strictly descending-measured /
ascending-physical table `[(100, 0), (0, 0.001)]` and the in-between input
`99`, `convert_OD` returns the interpolation rounded to 3 decimals, which
is exactly `0` — equal to the upper bracketing physical value `d_above`,
not strictly between `d_above = 0` and `d_below = 0.001` (strictness would
demand `0 < 0`). -/
theorem convert_OD_rounding_counterexample :
    convert_OD [((100 : ℚ), 0), (0, 1 / 1000)] 99 = ODResult.density 0 ∧
    ¬ ((0 : ℚ) < 0) := by
  constructor
  · norm_num [convert_OD, index_above, index_below, odKeyAbove, odKeyBelow,
      argminKey, argminAux, round3, roundHalfEven, List.find?, List.range']
  · exact lt_irrefl 0

/-- C3 (amended): for a strictly descending-measured table containing the
adjacent bracket `(ma, da), (mb, db)` with ascending physical values
`da < db`, an input `v` strictly between `mb` and `ma` whose distances to
both brackets are below the sentinel value 256 (always true on the 0-255
brightness scale) makes `convert_OD` return the linear interpolation
`da + ((ma - v)/(ma - mb)) * (db - da)` rounded to 3 decimals, and the
interpolation before rounding lies strictly between `da` and `db`. -/
theorem convert_OD_interpolation_amended
    (l₁ l₂ : List (ℚ × ℚ)) (ma da mb db v : ℚ)
    (hdesc : List.Pairwise (fun a b : ℚ × ℚ => b.1 < a.1)
      (l₁ ++ (ma, da) :: (mb, db) :: l₂))
    (hva : v < ma) (hvb : mb < v)
    (hga : ma - v < 256) (hgb : v - mb < 256)
    (hd : da < db) :
    convert_OD (l₁ ++ (ma, da) :: (mb, db) :: l₂) v =
      ODResult.density (round3 (da + ((ma - v) / (ma - mb)) * (db - da))) ∧
    da < da + ((ma - v) / (ma - mb)) * (db - da) ∧
    da + ((ma - v) / (ma - mb)) * (db - da) < db := by
  obtain ⟨hp₁, hp₂, hcr⟩ := List.pairwise_append.mp hdesc
  obtain ⟨hma, hp₃⟩ := List.pairwise_cons.mp hp₂
  obtain ⟨hmb, _⟩ := List.pairwise_cons.mp hp₃
  set params := l₁ ++ (ma, da) :: (mb, db) :: l₂ with hparams
  have fpre : ∀ a ∈ l₁, ma < a.1 :=
    fun a ha => hcr a ha (ma, da) (List.mem_cons_self _ _)
  have fpost : ∀ b ∈ l₂, b.1 < mb := fun b hb => hmb b hb
  have hmamb : mb < ma := hma (mb, db) (List.mem_cons_self _ _)
  have hmem_ma : ((ma, da) : ℚ × ℚ) ∈ params :=
    List.mem_append_right l₁ (List.mem_cons_self _ _)
  have hmem_mb : ((mb, db) : ℚ × ℚ) ∈ params :=
    List.mem_append_right l₁ (List.mem_cons_of_mem _ (List.mem_cons_self _ _))
  have h1 : ¬ v > params.headI.1 := by
    have := pairwise_desc_headI_max hdesc (ma, da) hmem_ma
    exact not_lt.mpr (le_trans (le_of_lt hva) this)
  have h2 : ¬ v < (params.getLastD (0, 0)).1 := by
    have := pairwise_desc_last_min params (0, 0) hdesc (mb, db) hmem_mb
    exact not_lt.mpr (le_trans this (le_of_lt hvb))
  have hfind : params.find? (fun p => decide (p.1 = v)) = none := by
    rw [List.find?_eq_none]
    intro p hp
    simp only [decide_eq_true_eq]
    rcases List.mem_append.mp hp with h | h
    · exact ne_of_gt (lt_trans hva (fpre p h))
    · rcases List.mem_cons.mp h with rfl | h
      · exact ne_of_gt hva
      · rcases List.mem_cons.mp h with rfl | h
        · exact ne_of_lt hvb
        · exact ne_of_lt (lt_trans (fpost p h) hvb)
  have hlen : params.length = l₁.length + 2 + l₂.length := by
    rw [hparams, List.length_append, List.length_cons, List.length_cons]
    omega
  have gi : params.getD l₁.length (0, 0) = (ma, da) := by
    have h := getD_append_right l₁ ((ma, da) :: (mb, db) :: l₂) 0 (0, 0)
    rw [Nat.add_zero] at h
    rw [hparams, h]
    rfl
  have gi1 : params.getD (l₁.length + 1) (0, 0) = (mb, db) := by
    have h := getD_append_right l₁ ((ma, da) :: (mb, db) :: l₂) 1 (0, 0)
    rw [hparams, h]
    rfl
  have hAi : odKeyAbove params v l₁.length = ma - v := by
    unfold odKeyAbove
    rw [gi, if_pos (show ((ma, da) : ℚ × ℚ).1 - v > 0 from by dsimp only; linarith)]
  have hBi : odKeyBelow params v (l₁.length + 1) = v - mb := by
    unfold odKeyBelow
    rw [gi1, if_pos (show v - ((mb, db) : ℚ × ℚ).1 > 0 from by dsimp only; linarith)]
  have hkeyA : ∀ j, j < params.length → j ≠ l₁.length →
      odKeyAbove params v l₁.length < odKeyAbove params v j := by
    intro j hj hne_j
    rw [hAi]
    rcases Nat.lt_trichotomy j l₁.length with hlt | heq | hgt
    · have hgetj : params.getD j (0, 0) = l₁.getD j (0, 0) :=
        getD_append_left l₁ _ j (0, 0) hlt
      have hmemj : l₁.getD j (0, 0) ∈ l₁ := by
        rw [List.getD_eq_get l₁ (0, 0) hlt]
        exact l₁.get_mem _ _
      have hja : ma < (l₁.getD j (0, 0)).1 := fpre _ hmemj
      unfold odKeyAbove
      rw [hgetj, if_pos (by linarith)]
      linarith
    · exact absurd heq hne_j
    · rcases Nat.lt_or_ge j (l₁.length + 2) with hj2 | hj2
      · have hj1 : j = l₁.length + 1 := by omega
        subst hj1
        unfold odKeyAbove
        rw [gi1, if_neg (show ¬ ((mb, db) : ℚ × ℚ).1 - v > 0 from by dsimp only; linarith)]
        linarith
      · obtain ⟨k, rfl⟩ : ∃ k, j = l₁.length + (k + 2) := ⟨j - l₁.length - 2, by omega⟩
        have hgetj : params.getD (l₁.length + (k + 2)) (0, 0) = l₂.getD k (0, 0) := by
          rw [getD_append_right l₁ _ (k + 2) (0, 0)]
          rfl
        have hkbound : k < l₂.length := by
          rw [hlen] at hj
          omega
        have hmemk : l₂.getD k (0, 0) ∈ l₂ := by
          rw [List.getD_eq_get l₂ (0, 0) hkbound]
          exact l₂.get_mem _ _
        have hklt : (l₂.getD k (0, 0)).1 < mb := fpost _ hmemk
        unfold odKeyAbove
        rw [hgetj, if_neg (show ¬ (l₂.getD k (0, 0)).1 - v > 0 from by linarith)]
        linarith
  have hkeyB : ∀ j, j < params.length → j ≠ l₁.length + 1 →
      odKeyBelow params v (l₁.length + 1) < odKeyBelow params v j := by
    intro j hj hne_j
    rw [hBi]
    rcases Nat.lt_trichotomy j l₁.length with hlt | heq | hgt
    · have hgetj : params.getD j (0, 0) = l₁.getD j (0, 0) :=
        getD_append_left l₁ _ j (0, 0) hlt
      have hmemj : l₁.getD j (0, 0) ∈ l₁ := by
        rw [List.getD_eq_get l₁ (0, 0) hlt]
        exact l₁.get_mem _ _
      have hja : ma < (l₁.getD j (0, 0)).1 := fpre _ hmemj
      unfold odKeyBelow
      rw [hgetj, if_neg (show ¬ v - (l₁.getD j (0, 0)).1 > 0 from by linarith)]
      linarith
    · subst heq
      unfold odKeyBelow
      rw [gi, if_neg (show ¬ v - ((ma, da) : ℚ × ℚ).1 > 0 from by dsimp only; linarith)]
      linarith
    · rcases Nat.lt_or_ge j (l₁.length + 2) with hj2 | hj2
      · exact absurd (by omega : j = l₁.length + 1) hne_j
      · obtain ⟨k, rfl⟩ : ∃ k, j = l₁.length + (k + 2) := ⟨j - l₁.length - 2, by omega⟩
        have hgetj : params.getD (l₁.length + (k + 2)) (0, 0) = l₂.getD k (0, 0) := by
          rw [getD_append_right l₁ _ (k + 2) (0, 0)]
          rfl
        have hkbound : k < l₂.length := by
          rw [hlen] at hj
          omega
        have hmemk : l₂.getD k (0, 0) ∈ l₂ := by
          rw [List.getD_eq_get l₂ (0, 0) hkbound]
          exact l₂.get_mem _ _
        have hklt : (l₂.getD k (0, 0)).1 < mb := fpost _ hmemk
        unfold odKeyBelow
        rw [hgetj, if_pos (show v - (l₂.getD k (0, 0)).1 > 0 from by linarith)]
        linarith
  have hA : index_above params v = l₁.length := by
    unfold index_above
    exact argminKey_eq_of_strict_min _ params.length l₁.length
      (by rw [hlen]; omega) hkeyA
  have hB : index_below params v = l₁.length + 1 := by
    unfold index_below
    exact argminKey_eq_of_strict_min _ params.length (l₁.length + 1)
      (by rw [hlen]; omega) hkeyB
  refine ⟨?_, ?_, ?_⟩
  · unfold convert_OD
    rw [if_neg h1, if_neg h2]
    simp only [hfind]
    rw [if_pos (show ((index_above params v : ℤ) = (index_below params v : ℤ) - 1)
      from by rw [hA, hB]; push_cast; ring)]
    rw [hA, hB, gi, gi1]
    dsimp only
    congr 1
    congr 1
    have hne : ma - mb ≠ 0 := by intro hc; exact absurd hmamb (by intro _; linarith)
    field_simp
    ring
  · have ht0 : 0 < (ma - v) / (ma - mb) := div_pos (by linarith) (by linarith)
    have hprod : 0 < (ma - v) / (ma - mb) * (db - da) :=
      mul_pos ht0 (by linarith)
    linarith
  · have ht1 : (ma - v) / (ma - mb) < 1 := (div_lt_one (by linarith)).mpr (by linarith)
    have hprod : (ma - v) / (ma - mb) * (db - da) < 1 * (db - da) :=
      mul_lt_mul_of_pos_right ht1 (by linarith)
    linarith

/-- C3 amended witness: the spec's example table `[(100, 3.8), (0, 5.8)]`
at input `50`: `convert_OD` returns the rounded midpoint interpolation and
the interpolation lies strictly between 3.8 and 5.8. -/
theorem convert_OD_interpolation_amended_witness :
    convert_OD [((100 : ℚ), 3.8), (0, 5.8)] 50 =
      ODResult.density (round3 ((3.8 : ℚ) + ((100 - 50) / (100 - 0)) * (5.8 - 3.8))) ∧
    (3.8 : ℚ) < 3.8 + ((100 - 50) / (100 - 0)) * (5.8 - 3.8) ∧
    (3.8 : ℚ) + ((100 - 50) / (100 - 0)) * (5.8 - 3.8) < 5.8 :=
  convert_OD_interpolation_amended [] [] 100 3.8 0 5.8 50
    (by norm_num [List.pairwise_cons]) (by norm_num) (by norm_num)
    (by norm_num) (by norm_num) (by norm_num)
